import Mathlib

/-!
# PingPong: latency correlation and dashboard layout

A shallow embedding of the stateful core of `main.go` (`ping`, `process`) and of the
pure parts of `tui.go` (`update`, the bar layout and scaling of `drawGraph`,
`formatLatency`), followed by theorems about them.

Conventions.
* `time.Duration`, `int64` and `int` values are integers; every Go arithmetic operation
  that can overflow is followed by `wrap64`, the reduction to two's complement `int64`.
* Values obtained from the environment (the clock, the transport, the received event)
  are arguments of the embedded functions.
* Global variables (`sendTimes`, `latencyBreakdownValid`, `oneData`, `twoData`) are the
  fields of `State`, passed explicitly.
-/

namespace PingPong

/-! ## Machine arithmetic and the parts of package `time` that the program uses -/

/-- Reduction of an integer to Go's `int64` (two's complement wrap-around) -/
def wrap64 (x : Int) : Int :=
  (x + 9223372036854775808) % 18446744073709551616 - 9223372036854775808

/-- Go's `time.minDuration`, the least `int64` -/
def minDuration : Int := -9223372036854775808

/-- Go's `time.maxDuration`, the greatest `int64` -/
def maxDuration : Int := 9223372036854775807

/-- Go's `time.Millisecond`, in nanoseconds -/
def Millisecond : Int := 1000000

/-- Membership in the range of `int64` -/
def inInt64 (x : Int) : Prop := minDuration ≤ x ∧ x ≤ maxDuration

instance (x : Int) : Decidable (inInt64 x) := by unfold inInt64; infer_instance

/-- Clamping of an exact difference to the range of `time.Duration`, as `Time.Sub` does -/
def saturate (x : Int) : Int :=
  if x < minDuration then minDuration else if x > maxDuration then maxDuration else x

/-- A `time.Time`: the wall clock reading in nanoseconds since the Unix epoch and,
when present, the monotonic clock reading in nanoseconds. `time.Now()` carries both,
`time.Unix` only the first. -/
structure Time where
  wall : Int
  mono : Option Int
deriving DecidableEq, Repr

/-- Go's `Time.Sub`: the difference of the monotonic readings when both times have one,
otherwise of the wall clock readings; saturating at `minDuration` and `maxDuration`. -/
def Time.Sub (t u : Time) : Int :=
  match t.mono, u.mono with
  | some a, some b => saturate (a - b)
  | _, _ => saturate (t.wall - u.wall)

/-- Go's `time.Unix(0, nsec)` -/
def timeUnix (nsec : Int) : Time := { wall := nsec, mono := none }

/-- Go's `Duration.lessThanHalf`: `uint64(x)+uint64(x) < uint64(y)` -/
def lessThanHalf (x y : Int) : Bool :=
  decide ((x % 18446744073709551616 + x % 18446744073709551616) % 18446744073709551616
    < y % 18446744073709551616)

/-- Go's `Duration.Round(m)`: rounding to the nearest multiple of `m`, halfway values
away from zero, saturating on overflow. -/
def DurationRound (d m : Int) : Int :=
  if m ≤ 0 then d
  else
    let r := d.tmod m
    if d < 0 then
      let r := wrap64 (-r)
      if lessThanHalf r m then wrap64 (d + r)
      else
        let d1 := wrap64 (wrap64 (d - m) + r)
        if d1 < d then d1 else minDuration
    else
      if lessThanHalf r m then wrap64 (d - r)
      else
        let d1 := wrap64 (wrap64 (d + m) - r)
        if d1 > d then d1 else maxDuration

/-- Go's `Duration.Milliseconds()`: truncating division by one million -/
def DurationMilliseconds (d : Int) : Int := d.tdiv 1000000

/-! ## Data model (`main.go`, `tui.go`) -/

/-- The struct `latency` of `main.go`; the fields are `time.Duration` values -/
structure latency where
  total : Int
  clientServer : Int
  serverServer : Int
  serverClient : Int
deriving DecidableEq, Repr

/-- The zero value of `latency` -/
def latency.zero : latency := { total := 0, clientServer := 0, serverServer := 0, serverClient := 0 }

/-- An `id.EventID` -/
abbrev EventID := String

/-- The fields of `event.Event` that `process` reads: the ID, the origin server
timestamp in milliseconds and `Unsigned.Age` in milliseconds. -/
structure Event where
  ID : EventID
  Timestamp : Int
  Age : Int
deriving DecidableEq, Repr

/-- The map `sendTimes`, as an association list -/
abbrev SendTimes := List (EventID × Time)

/-- Map lookup `sendTimes[k]` with the comma-ok result -/
def SendTimes.get (m : SendTimes) (k : EventID) : Option Time := List.lookup k m

/-- Go's `delete(sendTimes, k)` -/
def SendTimes.delete (m : SendTimes) (k : EventID) : SendTimes := m.filter (fun e => e.1 ≠ k)

/-- Go's map assignment `sendTimes[k] = v` -/
def SendTimes.set (m : SendTimes) (k : EventID) (v : Time) : SendTimes := (k, v) :: m.delete k

/-- Go's `len(sendTimes)` -/
def SendTimes.len (m : SendTimes) : Nat := m.length

/-- Well-formedness of the association list as a map: no key occurs twice -/
def SendTimes.WF (m : SendTimes) : Prop := (m.map Prod.fst).Nodup

/-- The constant `latencyHistorySize` -/
def latencyHistorySize : Nat := 500

/-- The struct `latencyData` of `tui.go` -/
structure latencyData where
  list : List latency
  sum : latency
  count : Int
deriving DecidableEq, Repr

/-- The zero value of `latencyData`, the initial value of `oneData` and `twoData` -/
def latencyData.empty : latencyData := { list := [], sum := latency.zero, count := 0 }

/-- The two channels through which `process` hands a record to the dashboard -/
inductive Chan where
  | oneLatencies
  | twoLatencies
deriving DecidableEq, Repr

/-- The global variables written by `ping`, `process` and `update` -/
structure State where
  sendTimes : SendTimes
  latencyBreakdownValid : Bool
  oneData : latencyData
  twoData : latencyData
deriving DecidableEq, Repr

/-- The initial values of the globals -/
def State.init : State :=
  { sendTimes := [], latencyBreakdownValid := true,
    oneData := latencyData.empty, twoData := latencyData.empty }

/-! ## `update` (`tui.go`) -/

/-- The function `update`, without the redraw that ends it -/
def update (d : latencyData) (l : latency) : latencyData :=
  let list := d.list ++ [l]
  let list := if list.length > latencyHistorySize then list.drop 1 else list
  { list := list
    sum :=
      { total := wrap64 (d.sum.total + l.total)
        clientServer := wrap64 (d.sum.clientServer + l.clientServer)
        serverServer := wrap64 (d.sum.serverServer + l.serverServer)
        serverClient := wrap64 (d.sum.serverClient + l.serverClient) }
    count := wrap64 (d.count + 1) }

/-- The effect of `latencies <- latency` in `process`: nothing for a nil channel,
otherwise `runTUI` receives the record and calls `update` on the matching store. -/
def deliver (s : State) (latencies : Option Chan) (l : latency) : State :=
  match latencies with
  | none => s
  | some Chan.oneLatencies => { s with oneData := update s.oneData l }
  | some Chan.twoLatencies => { s with twoData := update s.twoData l }

/-! ## `ping` and `process` (`main.go`) -/

/-- One iteration of the loop of `ping`: the clock reading taken before `SendText` and
the event ID of the response, `none` when `SendText` returned an error. -/
structure SendAttempt where
  sendTime : Time
  resp : Option EventID
deriving DecidableEq, Repr

/-- The function `ping`, run against the outcomes of its successive send attempts.
A failed attempt is retried; the first success stores the send time under the event ID
assigned by the transport. `none`: every listed attempt failed and the loop is still
retrying. -/
def ping (sendTimes : SendTimes) : List SendAttempt → Option SendTimes
  | [] => none
  | a :: rest =>
    match a.resp with
    | none => ping sendTimes rest
    | some eventID => some (sendTimes.set eventID a.sendTime)

/-- Lines 201-210 of `process`: the latency record of an echo -/
def measure (receiveTime sendTime : Time) (evt : Event) : latency :=
  let totalLatency := receiveTime.Sub sendTime
  let originServerClientLatency := receiveTime.Sub (timeUnix (wrap64 (evt.Timestamp * Millisecond)))
  let serverServerLatency := wrap64 (evt.Age * Millisecond)
  { total := totalLatency
    clientServer := wrap64 (totalLatency - originServerClientLatency)
    serverServer := serverServerLatency
    serverClient := wrap64 (originServerClientLatency - serverServerLatency) }

/-- Lines 199-236 of `process`, for an event whose ID is pending with send time
`sendTime`: the entry is deleted, the record is built, the validity flag is cleared when
a component of the breakdown is not positive, and the record is handed to the channel.
Result: the globals when the final `ping` is entered. -/
def received (s : State) (latencies : Option Chan) (evt : Event)
    (receiveTime sendTime : Time) : State :=
  let s1 := { s with sendTimes := s.sendTimes.delete evt.ID }
  let l := measure receiveTime sendTime evt
  let s2 :=
    if l.clientServer ≤ 0 ∨ l.serverServer ≤ 0 ∨ l.serverClient ≤ 0 then
      { s1 with latencyBreakdownValid := false }
    else s1
  deliver s2 latencies l

/-- The function `process`. Arguments: the globals, the channel argument (`none` is the
nil channel of debug mode), the event, the reading of `time.Now()` on entry and the
outcomes of the send attempts of the final `ping`.
Result: the latency record built (`none` for an event whose ID is not pending) and the
globals on return (`none` when the final `ping` is still retrying). -/
def process (s : State) (latencies : Option Chan) (evt : Event) (receiveTime : Time)
    (attempts : List SendAttempt) : Option latency × Option State :=
  match s.sendTimes.get evt.ID with
  | none => (none, some s)
  | some sendTime =>
    let l := measure receiveTime sendTime evt
    let s3 := received s latencies evt receiveTime sendTime
    match ping s3.sendTimes attempts with
    | none => (some l, none)
    | some sendTimes => (some l, some { s3 with sendTimes := sendTimes })

/-- The successive values of `sendTimes` in the course of one `process` call: on entry,
after the `delete`, and after the assignment in `ping`. -/
def sendTimesDuring (s : State) (evt : Event) (attempts : List SendAttempt) : List SendTimes :=
  match s.sendTimes.get evt.ID with
  | none => [s.sendTimes]
  | some _ =>
    let m1 := s.sendTimes.delete evt.ID
    match ping m1 attempts with
    | none => [s.sendTimes, m1]
    | some m2 => [s.sendTimes, m1, m2]

/-- The arguments of one `process` call -/
structure Call where
  latencies : Option Chan
  evt : Event
  receiveTime : Time
  attempts : List SendAttempt
deriving DecidableEq, Repr

/-- The aggregator loop of `main`: `process` applied to the received events in turn.
Result: the records built by the non-orphan calls, in order, and the globals after the
last call (`none` when some call is still retrying its `ping`). -/
def processAll : State → List Call → List latency × Option State
  | s, [] => ([], some s)
  | s, c :: cs =>
    match process s c.latencies c.evt c.receiveTime c.attempts with
    | (r, none) => (r.toList, none)
    | (r, some s') =>
      let rest := processAll s' cs
      (r.toList ++ rest.1, rest.2)

/-- Every value taken by `sendTimes` in the course of a run of the aggregator loop -/
def sendTimesDuringAll : State → List Call → List SendTimes
  | s, [] => [s.sendTimes]
  | s, c :: cs =>
    sendTimesDuring s c.evt c.attempts ++
      match (process s c.latencies c.evt c.receiveTime c.attempts).2 with
      | none => []
      | some s' => sendTimesDuringAll s' cs

/-! ## `drawGraph` (`tui.go`): bar layout, vertical scale and bar glyphs -/

/-- The glyph ramp `barCharacters` -/
def barCharacters : List Char := [' ', '▁', '▂', '▃', '▄', '▅', '▆', '▇', '█']

/-- The struct `bar` of `tui.go` -/
structure bar where
  styleOne : Bool
  latency : latency
deriving DecidableEq, Repr

/-- The variables of the layout loop of `drawGraph`: `bars`, `maxLatency`, `styleOne` -/
structure Layout where
  bars : List bar
  maxLatency : Int
  styleOne : Bool
deriving DecidableEq, Repr

/-- One iteration, for index `i`, of the layout loop of `drawGraph` -/
def layoutStep (oneData twoData : latencyData) (st : Layout) (i : Nat) : Layout :=
  let position := i / 2
  let lat :=
    if st.styleOne ∧ position < oneData.list.length then
      oneData.list.getD (oneData.list.length - 1 - position) latency.zero
    else if ¬ st.styleOne ∧ position < twoData.list.length then
      twoData.list.getD (twoData.list.length - 1 - position) latency.zero
    else latency.zero
  { bars := { styleOne := st.styleOne, latency := lat } :: st.bars
    maxLatency := if lat.total > st.maxLatency then lat.total else st.maxLatency
    styleOne := !st.styleOne }

/-- The layout loop of `drawGraph`, `for i := 0; i < width; i++` -/
def layout (oneData twoData : latencyData) (width : Int) : Layout :=
  (List.range width.toNat).foldl (layoutStep oneData twoData)
    { bars := [], maxLatency := 0, styleOne := decide (oneData.count = twoData.count) }

/-- The vertical scale: `(maxLatency + time.Duration(height) - 1) / time.Duration(height)` -/
def cellUnitOf (maxLatency height : Int) : Int :=
  wrap64 ((wrap64 (wrap64 (maxLatency + height) - 1)).tdiv height)

/-- The glyph index of a bar of latency `total` in row `j` (0 is the bottom row).
The argument `fractionLevel n d` stands for the floating point expression
`int(math.Round(float64(n) / float64(d) * float64(len(barCharacters)-1)))`. -/
def barIndex (fractionLevel : Int → Int → Int) (total cellUnit j : Int) : Int :=
  if total ≥ wrap64 (wrap64 (j + 1) * cellUnit) then
    (barCharacters.length : Int) - 1
  else if total > wrap64 (j * cellUnit) then
    fractionLevel (wrap64 (total - wrap64 (j * cellUnit))) cellUnit
  else 0

/-- One call `screen.SetContent(x, y, barCharacters[index], nil, style)` of the bar loop;
`styleOne` tells `oneBarStyle` from `twoBarStyle`. -/
structure Cell where
  x : Int
  y : Int
  index : Int
  styleOne : Bool
deriving DecidableEq, Repr

/-- The inner loop of the bar loop: the cells drawn for bar number `i` -/
def barColumn (fractionLevel : Int → Int → Int) (x y height cellUnit : Int)
    (i : Nat) (b : bar) : List Cell :=
  (List.range height.toNat).filterMap fun j =>
    let index := barIndex fractionLevel b.latency.total cellUnit j
    if index > 0 then
      some { x := x + i, y := y + height - 1 - j, index := index, styleOne := b.styleOne }
    else none

/-- What `drawGraph` computes and draws for the bars -/
structure Graph where
  bars : List bar
  maxLatency : Int
  cellUnit : Int
  cells : List Cell
deriving DecidableEq, Repr

/-- The function `drawGraph`, for the bars: the laid-out bars (leftmost first), the
scale, and the `SetContent` calls of the bar loop in order. `none`: the function
returned before laying out bars. The axis and its labels, drawn before and independently
of the bars, are left out. -/
def drawGraph (fractionLevel : Int → Int → Int) (oneData twoData : latencyData)
    (x y width height : Int) : Option Graph :=
  if width < 8 ∨ height < 1 then none
  else
    let x := x + 7
    let width := width - 7
    if twoData.count < 1 then none
    else
      let lay := layout oneData twoData width
      let cellUnit := cellUnitOf lay.maxLatency height
      some
        { bars := lay.bars
          maxLatency := lay.maxLatency
          cellUnit := cellUnit
          cells := lay.bars.enum.flatMap fun ib =>
            barColumn fractionLevel x y height cellUnit ib.1 ib.2 }

/-! ## `formatLatency` (`tui.go`) -/

/-- The text that `%v` prints for an `int64` -/
def decimal : Int → List Char
  | Int.ofNat k => Nat.toDigits 10 k
  | Int.negSucc k => '-' :: Nat.toDigits 10 (k + 1)

/-- The function `formatLatency`; texts are lists of ASCII characters. The argument
`formatSeconds ms` stands for `fmt.Sprintf("%.3gs", float64(ms)/1000)`. -/
def formatLatency (formatSeconds : Int → List Char) (lat : Int) (alignRight : Bool) :
    List Char :=
  let milliseconds := DurationMilliseconds (DurationRound lat Millisecond)
  let text :=
    if milliseconds < 1000 then decimal milliseconds ++ ['m', 's']
    else formatSeconds milliseconds
  let text :=
    if text.length < 5 then
      let padding := List.replicate (5 - text.length) ' '
      if alignRight then padding ++ text else text ++ padding
    else text
  text.take 5

/-! ## Predicates and sample data used in the statements -/

/-- All three components of the breakdown are positive (the total is not consulted) -/
def latency.breakdownPositive (l : latency) : Prop :=
  0 < l.clientServer ∧ 0 < l.serverServer ∧ 0 < l.serverClient

instance (l : latency) : Decidable l.breakdownPositive := by
  unfold latency.breakdownPositive; infer_instance

/-- A reading of `time.Now()` at `n` milliseconds on both clocks -/
def atMs (n : Int) : Time := { wall := n * 1000000, mono := some (n * 1000000) }

/-- The globals after an initial ping sent at 1000 ms -/
def exampleState : State := { State.init with sendTimes := [("$1", atMs 1000)] }

/-- Two round trips of 150 ms with server age 20 ms: the first with the origin
timestamp 5 ms before receipt, the second with it 10 ms after the send. -/
def exampleCalls : List Call :=
  [ { latencies := some Chan.twoLatencies, evt := { ID := "$1", Timestamp := 1145, Age := 20 },
      receiveTime := atMs 1150, attempts := [{ sendTime := atMs 11000, resp := some "$2" }] },
    { latencies := some Chan.oneLatencies, evt := { ID := "$2", Timestamp := 11010, Age := 20 },
      receiveTime := atMs 11150, attempts := [{ sendTime := atMs 21000, resp := some "$3" }] } ]

/-- The field-wise sum, in exact integers, of a list of records -/
def latency.sumOf (rs : List latency) : latency :=
  { total := (rs.map latency.total).sum
    clientServer := (rs.map latency.clientServer).sum
    serverServer := (rs.map latency.serverServer).sum
    serverClient := (rs.map latency.serverClient).sum }

/-- The field-wise reduction of a record to `int64` -/
def latency.wrap (l : latency) : latency :=
  { total := wrap64 l.total
    clientServer := wrap64 l.clientServer
    serverServer := wrap64 l.serverServer
    serverClient := wrap64 l.serverClient }

/-- Every field lies in the range of `int64` -/
def latency.fits (l : latency) : Prop :=
  inInt64 l.total ∧ inInt64 l.clientServer ∧ inInt64 l.serverServer ∧ inInt64 l.serverClient

/-- What the layout loop of `drawGraph` maintains about `maxLatency`: it is not
negative, no laid-out bar exceeds it, and it is zero or the total of a laid-out bar. -/
def Layout.MaxInv (st : Layout) : Prop :=
  0 ≤ st.maxLatency ∧ (∀ b ∈ st.bars, b.latency.total ≤ st.maxLatency) ∧
    (st.maxLatency = 0 ∨ ∃ b ∈ st.bars, b.latency.total = st.maxLatency)

/-- A token that consists of the decimal text of `m` followed by `ms`, padded with
spaces to exactly five characters, on the left when `alignRight` and on the right
otherwise. -/
def isPaddedMs (m : Int) (alignRight : Bool) (token : List Char) : Prop :=
  token.length = 5 ∧ ∃ k : Nat,
    token = if alignRight then List.replicate k ' ' ++ (decimal m ++ ['m', 's'])
      else (decimal m ++ ['m', 's']) ++ List.replicate k ' '

/-- A sample value for the argument `fractionLevel` of `barIndex`: the expression
evaluated in exact arithmetic, for a positive numerator and denominator. -/
def exactLevel (n d : Int) : Int := (16 * n + d) / (2 * d)

/-- A sample value for the argument `formatSeconds` of `formatLatency`; it is not
consulted for a duration below one second. -/
def noSeconds (_ : Int) : List Char := []

/-- A store after three pushes -/
def threeRecords : latencyData :=
  [({ total := 150, clientServer := 10, serverServer := 20, serverClient := 120 } : latency),
   { total := 160, clientServer := 20, serverServer := 20, serverClient := 120 },
   { total := 170, clientServer := 30, serverServer := 20, serverClient := 120 }].foldl
    update latencyData.empty

/-- A store after two pushes -/
def twoRecords : latencyData :=
  [({ total := 155, clientServer := 15, serverServer := 20, serverClient := 120 } : latency),
   { total := 165, clientServer := 25, serverServer := 20, serverClient := 120 }].foldl
    update latencyData.empty

/-- The globals after the two round trips of `exampleCalls` from `exampleState` -/
def exampleFinal : State :=
  { sendTimes := [("$3", atMs 21000)]
    latencyBreakdownValid := false
    oneData := update latencyData.empty
      { total := 150000000, clientServer := 10000000, serverServer := 20000000,
        serverClient := 120000000 }
    twoData := update latencyData.empty
      { total := 150000000, clientServer := 145000000, serverServer := 20000000,
        serverClient := -15000000 } }

/-! # Theorems -/

/-! ## Machine arithmetic -/

theorem wrap64_of_inInt64 {x : Int} (h : inInt64 x) : wrap64 x = x := by
  unfold inInt64 minDuration maxDuration at h
  unfold wrap64
  omega

theorem wrap64_inInt64 (x : Int) : inInt64 (wrap64 x) := by
  unfold inInt64 minDuration maxDuration wrap64
  omega

theorem wrap64_add_wrap64 (a b c : Int) :
    wrap64 (wrap64 (a + b) + c) = wrap64 (a + (b + c)) := by
  unfold wrap64
  omega

theorem saturate_inInt64 (x : Int) : inInt64 (saturate x) := by
  unfold saturate inInt64 minDuration maxDuration
  split_ifs <;> omega

theorem Time.Sub_inInt64 (t u : Time) : inInt64 (t.Sub u) := by
  unfold Time.Sub
  split <;> exact saturate_inInt64 _

/-! ## The map `sendTimes` -/

theorem SendTimes.get_cons (k k' : EventID) (v : Time) (m : SendTimes) :
    SendTimes.get ((k', v) :: m) k = if k = k' then some v else SendTimes.get m k := by
  unfold SendTimes.get
  rw [List.lookup_cons]
  by_cases h : k = k'
  · simp [h]
  · have : (k == k') = false := by simpa using h
    simp [this, h]

theorem SendTimes.get_delete_ne (m : SendTimes) (k k' : EventID) (h : k' ≠ k) :
    (m.delete k).get k' = m.get k' := by
  induction m with
  | nil => rfl
  | cons e m ih =>
    obtain ⟨k0, v⟩ := e
    unfold SendTimes.delete at ih ⊢
    by_cases h0 : k0 = k
    · subst h0
      simp only [List.filter_cons, ne_eq, not_true_eq_false, decide_False, Bool.false_eq_true,
        ite_false]
      rw [SendTimes.get_cons, if_neg h]
      exact ih
    · simp only [List.filter_cons, ne_eq, h0, not_false_eq_true, decide_True, ite_true]
      rw [SendTimes.get_cons, SendTimes.get_cons, ih]

theorem SendTimes.get_set_self (m : SendTimes) (k : EventID) (v : Time) :
    (m.set k v).get k = some v := by
  unfold SendTimes.set
  rw [SendTimes.get_cons, if_pos rfl]

theorem SendTimes.get_set_ne (m : SendTimes) (k k' : EventID) (v : Time) (h : k' ≠ k) :
    (m.set k v).get k' = m.get k' := by
  unfold SendTimes.set
  rw [SendTimes.get_cons, if_neg h, SendTimes.get_delete_ne m k k' h]

theorem SendTimes.keys_delete (m : SendTimes) (k : EventID) :
    (m.delete k).map Prod.fst = (m.map Prod.fst).filter (fun x => x ≠ k) := by
  unfold SendTimes.delete
  rw [List.filter_map]
  rfl

theorem SendTimes.WF_delete (m : SendTimes) (k : EventID) (h : m.WF) : (m.delete k).WF := by
  unfold SendTimes.WF at h ⊢
  rw [SendTimes.keys_delete]
  exact h.filter _

theorem SendTimes.WF_set (m : SendTimes) (k : EventID) (v : Time) (h : m.WF) :
    (m.set k v).WF := by
  have hd := SendTimes.WF_delete m k h
  unfold SendTimes.WF at hd ⊢
  unfold SendTimes.set
  rw [List.map_cons, List.nodup_cons]
  refine ⟨?_, hd⟩
  rw [SendTimes.keys_delete]
  simp

theorem SendTimes.len_delete_of_get (m : SendTimes) (k : EventID) (h : m.WF)
    (hk : m.get k ≠ none) : (m.delete k).len + 1 = m.len := by
  induction m with
  | nil => exact absurd rfl hk
  | cons e m ih =>
    obtain ⟨k0, v⟩ := e
    unfold SendTimes.WF at h ih
    rw [List.map_cons, List.nodup_cons] at h
    unfold SendTimes.len SendTimes.delete at ih ⊢
    by_cases h0 : k0 = k
    · subst h0
      have hnot : ∀ e ∈ m, e.1 ≠ k0 := by
        intro e he heq
        apply h.1
        rw [List.mem_map]
        exact ⟨e, he, heq⟩
      have hf : m.filter (fun e => e.1 ≠ k0) = m := by
        rw [List.filter_eq_self]
        intro e he
        simpa using hnot e he
      rw [List.filter_cons, hf]
      simp
    · have hk' : SendTimes.get m k ≠ none := by
        rw [SendTimes.get_cons, if_neg (fun h' => h0 h'.symm)] at hk
        exact hk
      simp only [List.filter_cons, ne_eq, h0, not_false_eq_true, decide_True, ite_true,
        List.length_cons]
      rw [ih h.2 hk']

/-! ## `ping` -/

theorem ping_append_success (m : SendTimes) (failures rest : List SendAttempt)
    (t : Time) (k : EventID) (hf : ∀ a ∈ failures, a.resp = none) :
    ping m (failures ++ { sendTime := t, resp := some k } :: rest) = some (m.set k t) := by
  induction failures with
  | nil => rfl
  | cons a fs ih =>
    have ha : a.resp = none := hf a (List.mem_cons_self _ _)
    rw [List.cons_append, ping, ha]
    exact ih (fun b hb => hf b (List.mem_cons_of_mem _ hb))

theorem ping_some (m : SendTimes) (attempts : List SendAttempt) (m' : SendTimes)
    (h : ping m attempts = some m') : ∃ k t, m' = m.set k t := by
  induction attempts with
  | nil => simp [ping] at h
  | cons a rest ih =>
    rw [ping] at h
    cases hr : a.resp with
    | none => rw [hr] at h; exact ih h
    | some k =>
      rw [hr] at h
      simp only [Option.some.injEq] at h
      exact ⟨k, a.sendTime, h.symm⟩

/-- The loop of `ping` ends as soon as one send attempt succeeds -/
theorem ping_returns (m : SendTimes) (attempts : List SendAttempt)
    (h : ∃ a ∈ attempts, a.resp ≠ none) : ping m attempts ≠ none := by
  induction attempts with
  | nil => simp at h
  | cons a rest ih =>
    rw [ping]
    cases hr : a.resp with
    | none =>
      obtain ⟨b, hb, hb'⟩ := h
      rcases List.mem_cons.mp hb with rfl | hb
      · exact absurd hr hb'
      · exact ih ⟨b, hb, hb'⟩
    | some k => simp

theorem ping_nil_len (attempts : List SendAttempt) (m : SendTimes)
    (h : ping [] attempts = some m) : m.len = 1 := by
  obtain ⟨k, t, rfl⟩ := ping_some [] attempts m h
  rfl

/-! ## `process` -/

theorem deliver_valid (s : State) (ch : Option Chan) (l : latency) :
    (deliver s ch l).latencyBreakdownValid = s.latencyBreakdownValid := by
  unfold deliver
  split <;> rfl

theorem deliver_sendTimes (s : State) (ch : Option Chan) (l : latency) :
    (deliver s ch l).sendTimes = s.sendTimes := by
  unfold deliver
  split <;> rfl

theorem received_sendTimes (s : State) (ch : Option Chan) (evt : Event) (rt st : Time) :
    (received s ch evt rt st).sendTimes = s.sendTimes.delete evt.ID := by
  unfold received
  simp only [deliver_sendTimes]
  split_ifs <;> rfl

theorem received_valid (s : State) (ch : Option Chan) (evt : Event) (rt st : Time) :
    ((received s ch evt rt st).latencyBreakdownValid = true ↔
      s.latencyBreakdownValid = true ∧ (measure rt st evt).breakdownPositive) := by
  unfold received latency.breakdownPositive
  simp only [deliver_valid]
  split_ifs with hbad
  · simp only [Bool.false_eq_true, false_iff, not_and]
    intro _
    omega
  · constructor
    · intro hv
      exact ⟨hv, by omega⟩
    · intro hv
      exact hv.1

theorem process_pending (s : State) (ch : Option Chan) (evt : Event) (rt : Time)
    (attempts : List SendAttempt) (sendTime : Time)
    (hg : s.sendTimes.get evt.ID = some sendTime) :
    process s ch evt rt attempts =
      (some (measure rt sendTime evt),
        (ping (s.sendTimes.delete evt.ID) attempts).map
          (fun m => { received s ch evt rt sendTime with sendTimes := m })) := by
  unfold process
  rw [hg]
  simp only [received_sendTimes]
  cases ping (s.sendTimes.delete evt.ID) attempts <;> rfl

theorem process_of_orphan (s : State) (ch : Option Chan) (evt : Event) (rt : Time)
    (attempts : List SendAttempt) (hg : s.sendTimes.get evt.ID = none) :
    process s ch evt rt attempts = (none, some s) := by
  unfold process
  rw [hg]

/-- A `process` call returns as soon as one send attempt of its final `ping` succeeds -/
theorem process_returns (s : State) (ch : Option Chan) (evt : Event) (rt : Time)
    (attempts : List SendAttempt) (h : ∃ a ∈ attempts, a.resp ≠ none) :
    (process s ch evt rt attempts).2 ≠ none := by
  cases hg : s.sendTimes.get evt.ID with
  | none => rw [process_of_orphan s ch evt rt attempts hg]; simp
  | some sendTime =>
    rw [process_pending s ch evt rt attempts sendTime hg]
    have := ping_returns (s.sendTimes.delete evt.ID) attempts h
    cases hp : ping (s.sendTimes.delete evt.ID) attempts with
    | none => exact absurd hp this
    | some m => simp

theorem measure_sum (receiveTime sendTime : Time) (evt : Event) :
    wrap64 (wrap64 ((measure receiveTime sendTime evt).clientServer
        + (measure receiveTime sendTime evt).serverServer)
      + (measure receiveTime sendTime evt).serverClient)
      = (measure receiveTime sendTime evt).total := by
  have ht := Time.Sub_inInt64 receiveTime sendTime
  simp only [measure]
  generalize receiveTime.Sub sendTime = t at ht
  generalize receiveTime.Sub _ = o
  generalize evt.Age * Millisecond = a
  unfold inInt64 minDuration maxDuration at ht
  unfold wrap64
  omega

/-- C1. For every call of `process` on an event whose ID is pending, whatever the send
time, receive time, origin timestamp and server age, a latency record is built and it
satisfies `clientServer + serverServer + serverClient == total` in the program's `int64`
arithmetic; the same holds in exact integers whenever the exact sum fits an `int64`. -/
theorem process_decomposition (s : State) (latencies : Option Chan) (evt : Event)
    (receiveTime : Time) (attempts : List SendAttempt) (sendTime : Time)
    (hpending : s.sendTimes.get evt.ID = some sendTime) :
    ∃ l : latency, (process s latencies evt receiveTime attempts).1 = some l ∧
      wrap64 (wrap64 (l.clientServer + l.serverServer) + l.serverClient) = l.total ∧
      (inInt64 (l.clientServer + l.serverServer + l.serverClient) →
        l.clientServer + l.serverServer + l.serverClient = l.total) := by
  refine ⟨measure receiveTime sendTime evt, ?_, measure_sum _ _ _, ?_⟩
  · rw [process_pending s latencies evt receiveTime attempts sendTime hpending]
  · intro hr
    have h := measure_sum receiveTime sendTime evt
    unfold inInt64 minDuration maxDuration at hr
    unfold wrap64 at h
    omega

/-- Witness of C1: the round trip sent at 1000 ms and received at 1150 ms with origin
timestamp 1145 ms and age 20 ms, whose server-to-client component is negative. -/
theorem process_decomposition_witness :
    exampleState.sendTimes.get "$1" = some (atMs 1000) ∧
    ∃ l : latency,
      (process exampleState none { ID := "$1", Timestamp := 1145, Age := 20 }
        (atMs 1150) []).1 = some l ∧
      wrap64 (wrap64 (l.clientServer + l.serverServer) + l.serverClient) = l.total ∧
      (inInt64 (l.clientServer + l.serverServer + l.serverClient) →
        l.clientServer + l.serverServer + l.serverClient = l.total) :=
  ⟨by decide,
    process_decomposition exampleState none { ID := "$1", Timestamp := 1145, Age := 20 }
      (atMs 1150) [] (atMs 1000) (by decide)⟩

theorem process_latch (s : State) (ch : Option Chan) (evt : Event) (rt : Time)
    (attempts : List SendAttempt) (s' : State)
    (h : (process s ch evt rt attempts).2 = some s') :
    (s'.latencyBreakdownValid = true ↔ s.latencyBreakdownValid = true ∧
      ∀ l ∈ (process s ch evt rt attempts).1.toList, l.breakdownPositive) := by
  cases hg : s.sendTimes.get evt.ID with
  | none =>
    rw [process_of_orphan s ch evt rt attempts hg] at h ⊢
    simp only [Option.some.injEq] at h
    subst h
    simp
  | some sendTime =>
    rw [process_pending s ch evt rt attempts sendTime hg] at h ⊢
    cases hp : ping (s.sendTimes.delete evt.ID) attempts with
    | none => rw [hp] at h; simp at h
    | some m =>
      rw [hp] at h
      simp only [Option.map_some', Option.some.injEq] at h
      subst h
      simp only [Option.toList, List.mem_singleton, forall_eq]
      exact received_valid s ch evt rt sendTime

theorem processAll_cons_some (s s1 : State) (c : Call) (cs : List Call) (r : Option latency)
    (hp : process s c.latencies c.evt c.receiveTime c.attempts = (r, some s1)) :
    processAll s (c :: cs) = (r.toList ++ (processAll s1 cs).1, (processAll s1 cs).2) := by
  rw [processAll, hp]

theorem processAll_cons_none (s : State) (c : Call) (cs : List Call) (r : Option latency)
    (hp : process s c.latencies c.evt c.receiveTime c.attempts = (r, none)) :
    processAll s (c :: cs) = (r.toList, none) := by
  rw [processAll, hp]

theorem processAll_latch (calls : List Call) : ∀ (s s' : State),
    (processAll s calls).2 = some s' →
    (s'.latencyBreakdownValid = true ↔ s.latencyBreakdownValid = true ∧
      ∀ l ∈ (processAll s calls).1, l.breakdownPositive) := by
  induction calls with
  | nil =>
    intro s s' h
    simp only [processAll, Option.some.injEq] at h
    subst h
    simp [processAll]
  | cons c cs ih =>
    intro s s' h
    cases hp : process s c.latencies c.evt c.receiveTime c.attempts with
    | mk r o =>
      cases o with
      | none => rw [processAll_cons_none s c cs r hp] at h; simp at h
      | some s1 =>
        rw [processAll_cons_some s s1 c cs r hp] at h ⊢
        have h1 := process_latch s c.latencies c.evt c.receiveTime c.attempts s1 (by rw [hp])
        rw [hp] at h1
        dsimp only at h h1 ⊢
        rw [ih s1 s' h, h1]
        simp only [List.mem_append]
        constructor
        · rintro ⟨⟨hv, ha⟩, hb⟩
          exact ⟨hv, fun l hl => hl.elim (ha l) (hb l)⟩
        · rintro ⟨hv, hab⟩
          exact ⟨⟨hv, fun l hl => hab l (Or.inl hl)⟩, fun l hl => hab l (Or.inr hl)⟩

/-- The aggregator loop returns from every call when each final `ping` has a
successful send attempt. -/
theorem processAll_returns (calls : List Call) : ∀ s : State,
    (∀ c ∈ calls, ∃ a ∈ c.attempts, a.resp ≠ none) → (processAll s calls).2 ≠ none := by
  induction calls with
  | nil => intro s _; simp [processAll]
  | cons c cs ih =>
    intro s h
    have hc := process_returns s c.latencies c.evt c.receiveTime c.attempts
      (h c (List.mem_cons_self _ _))
    cases hp : process s c.latencies c.evt c.receiveTime c.attempts with
    | mk r o =>
      cases o with
      | none => rw [hp] at hc; exact absurd rfl hc
      | some s1 =>
        rw [processAll_cons_some s s1 c cs r hp]
        exact ih s1 (fun c' hc' => h c' (List.mem_cons_of_mem _ hc'))

/-- C2. After any sequence of `process` calls, `latencyBreakdownValid` is true exactly
when it was true before and every record built by a non-orphan call of the sequence has
`clientServer > 0`, `serverServer > 0` and `serverClient > 0` (the total plays no part);
in particular a flag that is false before the sequence is false after it. -/
theorem latch_iff (s : State) (calls : List Call) (s' : State)
    (hrun : (processAll s calls).2 = some s') :
    (s'.latencyBreakdownValid = true ↔ s.latencyBreakdownValid = true ∧
      ∀ l ∈ (processAll s calls).1,
        0 < l.clientServer ∧ 0 < l.serverServer ∧ 0 < l.serverClient) ∧
    (s.latencyBreakdownValid = false → s'.latencyBreakdownValid = false) := by
  have h := processAll_latch calls s s' hrun
  refine ⟨h, ?_⟩
  intro hf
  cases hv : s'.latencyBreakdownValid with
  | false => rfl
  | true =>
    have := (h.mp hv).1
    rw [hf] at this
    exact absurd this (by simp)

/-- Witness of C2: send 1000 ms, receive 1150 ms, age 20 ms with origin 1145 ms, then
the same round trip ten seconds later with the origin 10 ms after the send. -/
theorem latch_iff_witness :
    (processAll exampleState exampleCalls).2 = some exampleFinal ∧
    ((exampleFinal.latencyBreakdownValid = true ↔
        exampleState.latencyBreakdownValid = true ∧
        ∀ l ∈ (processAll exampleState exampleCalls).1,
          0 < l.clientServer ∧ 0 < l.serverServer ∧ 0 < l.serverClient) ∧
      (exampleState.latencyBreakdownValid = false →
        exampleFinal.latencyBreakdownValid = false)) :=
  ⟨by decide, latch_iff exampleState exampleCalls exampleFinal (by decide)⟩

/-- The scenario of the invalidating round trip: the first record has a negative
server-to-client component and clears the flag; the second record is positive in every
component and the flag stays cleared. -/
theorem latch_example :
    (processAll exampleState exampleCalls).1 =
      [{ total := 150000000, clientServer := 145000000, serverServer := 20000000,
         serverClient := -15000000 },
       { total := 150000000, clientServer := 10000000, serverServer := 20000000,
         serverClient := 120000000 }] ∧
    exampleState.latencyBreakdownValid = true ∧
    (processAll exampleState (exampleCalls.take 1)).2.map State.latencyBreakdownValid
      = some false ∧
    (processAll exampleState exampleCalls).2.map State.latencyBreakdownValid = some false := by
  decide

/-- C3. For an event whose ID is not a key of `sendTimes`, `process` returns without
building a latency record and leaves every global unchanged: `sendTimes` (contents and
size), `latencyBreakdownValid` and both `latencyData` stores; `sendTimes` takes no other
value in the course of the call. -/
theorem process_orphan (s : State) (latencies : Option Chan) (evt : Event)
    (receiveTime : Time) (attempts : List SendAttempt)
    (horphan : s.sendTimes.get evt.ID = none) :
    process s latencies evt receiveTime attempts = (none, some s) ∧
    sendTimesDuring s evt attempts = [s.sendTimes] := by
  refine ⟨process_of_orphan s latencies evt receiveTime attempts horphan, ?_⟩
  unfold sendTimesDuring
  rw [horphan]

/-- Witness of C3: an echo with the unknown ID `$9` while `$1` is pending -/
theorem process_orphan_witness :
    exampleState.sendTimes.get "$9" = none ∧
    (process exampleState (some Chan.oneLatencies) { ID := "$9", Timestamp := 1010, Age := 20 }
        (atMs 1150) [{ sendTime := atMs 4150, resp := some "$2" }] = (none, some exampleState) ∧
      sendTimesDuring exampleState { ID := "$9", Timestamp := 1010, Age := 20 }
        [{ sendTime := atMs 4150, resp := some "$2" }] = [exampleState.sendTimes]) :=
  ⟨by decide,
    process_orphan exampleState (some Chan.oneLatencies)
      { ID := "$9", Timestamp := 1010, Age := 20 } (atMs 1150)
      [{ sendTime := atMs 4150, resp := some "$2" }] (by decide)⟩

/-! ## `update` -/

theorem update_list_length_le (d : latencyData) (l : latency)
    (h : d.list.length ≤ latencyHistorySize) :
    (update d l).list.length ≤ latencyHistorySize := by
  unfold update latencyHistorySize at *
  dsimp only
  split_ifs with hc
  · simp only [List.length_drop, List.length_append, List.length_singleton]
    omega
  · simpa using hc

theorem foldl_update_list (rs : List latency) : ∀ d : latencyData,
    d.list.length ≤ latencyHistorySize →
    (rs.foldl update d).list =
      (d.list ++ rs).drop ((d.list ++ rs).length - latencyHistorySize) := by
  induction rs with
  | nil =>
    intro d hd
    simp only [List.foldl_nil, List.append_nil]
    rw [Nat.sub_eq_zero_of_le hd, List.drop_zero]
  | cons r rs ih =>
    intro d hd
    rw [List.foldl_cons, ih (update d r) (update_list_length_le d r hd)]
    unfold update latencyHistorySize at *
    dsimp only
    split_ifs with hc
    · have hlen : d.list.length = 500 := by
        simp only [List.length_append, List.length_singleton] at hc
        omega
      have h1 : (d.list ++ r :: rs) = (d.list ++ [r]) ++ rs := by simp
      rw [h1]
      have h2 : List.drop 1 (d.list ++ [r] ++ rs) = List.drop 1 (d.list ++ [r]) ++ rs :=
        List.drop_append_of_le_length (by simp)
      simp only [List.length_append, List.length_drop, List.length_singleton, hlen]
      have h3 : 500 + 1 + rs.length - 500 = 1 + rs.length := by omega
      have h4 : 500 + 1 - 1 + rs.length - 500 = rs.length := by omega
      rw [h3, h4, ← List.drop_drop, h2]
    · simp

theorem update_fits (d : latencyData) (l : latency) :
    (update d l).sum.fits ∧ inInt64 (update d l).count := by
  unfold update latency.fits
  exact ⟨⟨wrap64_inInt64 _, wrap64_inInt64 _, wrap64_inInt64 _, wrap64_inInt64 _⟩,
    wrap64_inInt64 _⟩

theorem foldl_update_sum (rs : List latency) : ∀ d : latencyData,
    d.sum.fits → inInt64 d.count →
    (rs.foldl update d).sum =
      { total := wrap64 (d.sum.total + (latency.sumOf rs).total)
        clientServer := wrap64 (d.sum.clientServer + (latency.sumOf rs).clientServer)
        serverServer := wrap64 (d.sum.serverServer + (latency.sumOf rs).serverServer)
        serverClient := wrap64 (d.sum.serverClient + (latency.sumOf rs).serverClient) } ∧
    (rs.foldl update d).count = wrap64 (d.count + rs.length) := by
  induction rs with
  | nil =>
    intro d hs hc
    obtain ⟨h1, h2, h3, h4⟩ := hs
    simp only [List.foldl_nil, latency.sumOf, List.map_nil, List.sum_nil, add_zero,
      List.length_nil, Nat.cast_zero]
    rw [wrap64_of_inInt64 h1, wrap64_of_inInt64 h2, wrap64_of_inInt64 h3,
      wrap64_of_inInt64 h4, wrap64_of_inInt64 hc]
    exact ⟨rfl, rfl⟩
  | cons r rs ih =>
    intro d _ _
    rw [List.foldl_cons]
    obtain ⟨hs, hc⟩ := update_fits d r
    obtain ⟨ihs, ihc⟩ := ih (update d r) hs hc
    rw [ihs, ihc]
    simp only [update, latency.sumOf, List.map_cons, List.sum_cons, List.length_cons,
      wrap64_add_wrap64, Nat.cast_add, Nat.cast_one]
    refine ⟨trivial, ?_⟩
    congr 1
    omega

theorem foldl_update_empty (rs : List latency) :
    (rs.foldl update latencyData.empty).list = rs.drop (rs.length - latencyHistorySize) ∧
    (rs.foldl update latencyData.empty).list.length = min rs.length latencyHistorySize ∧
    (rs.foldl update latencyData.empty).count = wrap64 rs.length ∧
    (rs.foldl update latencyData.empty).sum = (latency.sumOf rs).wrap ∧
    (inInt64 rs.length → (rs.foldl update latencyData.empty).count = rs.length) ∧
    ((latency.sumOf rs).fits → (rs.foldl update latencyData.empty).sum = latency.sumOf rs) := by
  have hl := foldl_update_list rs latencyData.empty (by simp [latencyData.empty])
  have hz : latencyData.empty.sum.fits := by
    unfold latency.fits latencyData.empty latency.zero inInt64 minDuration maxDuration
    simp
  have hc0 : inInt64 latencyData.empty.count := by
    unfold latencyData.empty inInt64 minDuration maxDuration
    simp
  obtain ⟨hs, hc⟩ := foldl_update_sum rs latencyData.empty hz hc0
  have hl2 : (rs.foldl update latencyData.empty).list
      = rs.drop (rs.length - latencyHistorySize) := by
    simpa [latencyData.empty] using hl
  have hsum : (rs.foldl update latencyData.empty).sum = (latency.sumOf rs).wrap := by
    simpa [latencyData.empty, latency.zero, latency.wrap] using hs
  have hcount : (rs.foldl update latencyData.empty).count = wrap64 rs.length := by
    simpa [latencyData.empty] using hc
  refine ⟨hl2, ?_, hcount, hsum, ?_, ?_⟩
  · rw [hl2, List.length_drop]
    unfold latencyHistorySize
    omega
  · intro h
    rw [hcount, wrap64_of_inInt64 h]
  · rintro ⟨h1, h2, h3, h4⟩
    rw [hsum]
    unfold latency.wrap
    rw [wrap64_of_inInt64 h1, wrap64_of_inInt64 h2, wrap64_of_inInt64 h3, wrap64_of_inInt64 h4]

/-- C4. After pushing any sequence of `n` records with `update` into the empty store,
the list holds exactly the last `min(n, 500)` records in push order, `count` is `n` and
`sum` is the field-wise sum of all `n` records, the evicted ones included. Count and sum
are `int64` values: they are the exact count and sums reduced by `wrap64`, hence the
exact ones whenever these fit. -/
theorem history_cap_vs_cumulative (rs : List latency) :
    (rs.foldl update latencyData.empty).list = rs.drop (rs.length - latencyHistorySize) ∧
    (rs.foldl update latencyData.empty).list.length = min rs.length latencyHistorySize ∧
    (rs.foldl update latencyData.empty).count = wrap64 rs.length ∧
    (rs.foldl update latencyData.empty).sum = (latency.sumOf rs).wrap ∧
    (inInt64 rs.length → (rs.foldl update latencyData.empty).count = rs.length) ∧
    ((latency.sumOf rs).fits → (rs.foldl update latencyData.empty).sum = latency.sumOf rs) :=
  foldl_update_empty rs

/-- The scenario of C4 with 501 pushes: 500 records are kept, the oldest is gone, and
count and sum cover all 501. -/
theorem history_after_501 (r : latency) (rs : List latency) (h : rs.length = 500) :
    ((r :: rs).foldl update latencyData.empty).list = rs ∧
    ((r :: rs).foldl update latencyData.empty).count = 501 ∧
    ((r :: rs).foldl update latencyData.empty).sum = (latency.sumOf (r :: rs)).wrap := by
  obtain ⟨hl, _, hc, hs, _, _⟩ := foldl_update_empty (r :: rs)
  refine ⟨?_, ?_, hs⟩
  · rw [hl]
    simp [h, latencyHistorySize]
  · rw [hc]
    simp only [List.length_cons, h]
    decide

/-! ## The single message in flight -/

/-- The last value of `sendTimes` in the course of a returned `process` call is the value
on return. -/
theorem sendTimesDuring_last (s : State) (ch : Option Chan) (evt : Event) (rt : Time)
    (attempts : List SendAttempt) (s' : State)
    (h : (process s ch evt rt attempts).2 = some s') :
    (sendTimesDuring s evt attempts).getLast? = some s'.sendTimes := by
  unfold sendTimesDuring
  cases hg : s.sendTimes.get evt.ID with
  | none =>
    rw [process_of_orphan s ch evt rt attempts hg] at h
    simp only [Option.some.injEq] at h
    rw [← h]
    rfl
  | some sendTime =>
    rw [process_pending s ch evt rt attempts sendTime hg] at h
    dsimp only
    cases hp : ping (s.sendTimes.delete evt.ID) attempts with
    | none => rw [hp] at h; simp at h
    | some m =>
      rw [hp] at h
      simp only [Option.map_some', Option.some.injEq] at h
      rw [← h]
      rfl

theorem single_entry_step (s : State) (ch : Option Chan) (evt : Event) (rt : Time)
    (attempts : List SendAttempt) (h1 : s.sendTimes.len = 1) :
    (∀ m ∈ sendTimesDuring s evt attempts, m.len ≤ 1) ∧
    (∀ s', (process s ch evt rt attempts).2 = some s' → s'.sendTimes.len = 1) := by
  obtain ⟨⟨k, v⟩, hm⟩ := List.length_eq_one.mp h1
  cases hg : s.sendTimes.get evt.ID with
  | none =>
    rw [process_of_orphan s ch evt rt attempts hg]
    unfold sendTimesDuring
    rw [hg]
    constructor
    · intro m hmem
      simp only [List.mem_singleton] at hmem
      rw [hmem, h1]
    · intro s' hs'
      simp only [Option.some.injEq] at hs'
      rw [← hs', h1]
  | some sendTime =>
    have hk : evt.ID = k := by
      rw [hm, SendTimes.get_cons] at hg
      by_contra hne
      rw [if_neg hne] at hg
      exact absurd hg (by simp [SendTimes.get])
    have hdel : s.sendTimes.delete evt.ID = [] := by
      rw [hm, hk]
      simp [SendTimes.delete]
    rw [process_pending s ch evt rt attempts sendTime hg]
    unfold sendTimesDuring
    rw [hg, hdel]
    dsimp only
    cases hp : ping [] attempts with
    | none =>
      constructor
      · intro m hmem
        simp only [List.mem_cons, List.mem_singleton, List.not_mem_nil, or_false] at hmem
        rcases hmem with rfl | rfl
        · rw [h1]
        · simp [SendTimes.len]
      · intro s' hs'
        simp at hs'
    | some m2 =>
      have h2 := ping_nil_len attempts m2 hp
      constructor
      · intro m hmem
        simp only [List.mem_cons, List.mem_singleton, List.not_mem_nil, or_false] at hmem
        rcases hmem with rfl | rfl | rfl
        · rw [h1]
        · simp [SendTimes.len]
        · rw [h2]
      · intro s' hs'
        simp only [Option.map_some', Option.some.injEq] at hs'
        rw [← hs']
        exact h2

theorem single_entry_run (calls : List Call) : ∀ s : State, s.sendTimes.len = 1 →
    (∀ m ∈ sendTimesDuringAll s calls, m.len ≤ 1) ∧
    (∀ s', (processAll s calls).2 = some s' → s'.sendTimes.len = 1) := by
  induction calls with
  | nil =>
    intro s h1
    constructor
    · intro m hmem
      simp only [sendTimesDuringAll, List.mem_singleton] at hmem
      rw [hmem, h1]
    · intro s' hs'
      simp only [processAll, Option.some.injEq] at hs'
      rw [← hs', h1]
  | cons c cs ih =>
    intro s h1
    obtain ⟨hd, hp⟩ := single_entry_step s c.latencies c.evt c.receiveTime c.attempts h1
    cases hpr : process s c.latencies c.evt c.receiveTime c.attempts with
    | mk r o =>
      cases o with
      | none =>
        constructor
        · intro m hmem
          rw [sendTimesDuringAll, hpr] at hmem
          simp only [List.append_nil] at hmem
          exact hd m hmem
        · intro s' hs'
          rw [processAll, hpr] at hs'
          simp at hs'
      | some s1 =>
        have hs1 : s1.sendTimes.len = 1 := hp s1 (by rw [hpr])
        obtain ⟨ihd, ihp⟩ := ih s1 hs1
        constructor
        · intro m hmem
          rw [sendTimesDuringAll, hpr] at hmem
          rcases List.mem_append.mp hmem with h | h
          · exact hd m h
          · exact ihd m h
        · intro s' hs'
          rw [processAll, hpr] at hs'
          exact ihp s' hs'

/-- C7. Starting from the globals after the initial `ping` (one pending entry), after
every returned `process` call of any run, orphan or not, `sendTimes` holds exactly one
entry, and no value that `sendTimes` takes in the course of the run holds more than one.
(No freshness of the assigned event IDs is needed: the pending entry is deleted before
the next one is stored.) -/
theorem single_in_flight (attempts0 : List SendAttempt) (s0 : State) (calls : List Call)
    (hinit : ping [] attempts0 = some s0.sendTimes) :
    (∀ s', (processAll s0 calls).2 = some s' → s'.sendTimes.len = 1) ∧
    (∀ m ∈ sendTimesDuringAll s0 calls, m.len ≤ 1) := by
  have h1 := ping_nil_len attempts0 s0.sendTimes hinit
  exact ⟨(single_entry_run calls s0 h1).2, (single_entry_run calls s0 h1).1⟩

/-- Witness of C7: the two round trips of `exampleCalls` after an initial ping that
succeeded at its second attempt. -/
theorem single_in_flight_witness :
    ping [] [{ sendTime := atMs 500, resp := none }, { sendTime := atMs 1000, resp := some "$1" }]
      = some exampleState.sendTimes ∧
    ((∀ s', (processAll exampleState exampleCalls).2 = some s' → s'.sendTimes.len = 1) ∧
      (∀ m ∈ sendTimesDuringAll exampleState exampleCalls, m.len ≤ 1)) :=
  ⟨by decide,
    single_in_flight
      [{ sendTime := atMs 500, resp := none }, { sendTime := atMs 1000, resp := some "$1" }]
      exampleState exampleCalls (by decide)⟩

/-- The values of `sendTimes` in the course of the run of `exampleCalls` -/
theorem in_flight_example :
    sendTimesDuringAll exampleState exampleCalls =
      [[("$1", atMs 1000)], [], [("$2", atMs 11000)],
       [("$2", atMs 11000)], [], [("$3", atMs 21000)],
       [("$3", atMs 21000)]] := by
  decide

/-! ## Recording a send for a pending ID -/

/-- C9, as the code behaves. Recording a send for an event ID that is already a key of
`sendTimes` overwrites the send time stored for that ID with the new one; the entries of
the other IDs and the size of the table are unchanged. -/
theorem ping_overwrites (m : SendTimes) (failures rest : List SendAttempt)
    (sendTime : Time) (eventID : EventID) (hwf : m.WF)
    (hfail : ∀ a ∈ failures, a.resp = none)
    (hkey : m.get eventID ≠ none) :
    ∃ m', ping m (failures ++ { sendTime := sendTime, resp := some eventID } :: rest) = some m' ∧
      m'.get eventID = some sendTime ∧
      (∀ k, k ≠ eventID → m'.get k = m.get k) ∧
      m'.len = m.len ∧ m'.WF := by
  refine ⟨m.set eventID sendTime, ping_append_success m failures rest sendTime eventID hfail,
    SendTimes.get_set_self m eventID sendTime,
    fun k hk => SendTimes.get_set_ne m eventID k sendTime hk, ?_,
    SendTimes.WF_set m eventID sendTime hwf⟩
  have := SendTimes.len_delete_of_get m eventID hwf hkey
  unfold SendTimes.len SendTimes.set at *
  simpa using this

/-- Witness of C9: `$1` is pending with send time 1000 ms; a failed attempt and then a
send at 7000 ms that is assigned `$1` again. -/
theorem ping_overwrites_witness :
    (SendTimes.WF [("$1", atMs 1000)] ∧
      (∀ a ∈ [({ sendTime := atMs 2000, resp := none } : SendAttempt)], a.resp = none) ∧
      SendTimes.get [("$1", atMs 1000)] "$1" ≠ none) ∧
    ∃ m', ping [("$1", atMs 1000)]
        ([{ sendTime := atMs 2000, resp := none }] ++
          { sendTime := atMs 7000, resp := some "$1" } :: []) = some m' ∧
      m'.get "$1" = some (atMs 7000) ∧
      (∀ k, k ≠ "$1" → m'.get k = SendTimes.get [("$1", atMs 1000)] k) ∧
      m'.len = SendTimes.len [("$1", atMs 1000)] ∧ m'.WF :=
  ⟨⟨by simp [SendTimes.WF], by simp, by decide⟩,
    ping_overwrites [("$1", atMs 1000)] [{ sendTime := atMs 2000, resp := none }] []
      (atMs 7000) "$1" (by simp [SendTimes.WF]) (by simp) (by decide)⟩

/-- Counterexample to C9 as stated: with `$1` pending since 1000 ms, a send at 7000 ms
that is assigned `$1` changes the table: the stored send time becomes 7000 ms. -/
theorem ping_not_noop :
    SendTimes.get [("$1", atMs 1000)] "$1" = some (atMs 1000) ∧
    ping [("$1", atMs 1000)] [{ sendTime := atMs 7000, resp := some "$1" }]
      = some [("$1", atMs 7000)] ∧
    ping [("$1", atMs 1000)] [{ sendTime := atMs 7000, resp := some "$1" }]
      ≠ some [("$1", atMs 1000)] := by
  decide

/-! ## `drawGraph` -/

theorem layoutStep_bars (one two : latencyData) (st : Layout) (i : Nat) :
    ∃ b : bar, b.styleOne = st.styleOne ∧ (layoutStep one two st i).bars = b :: st.bars :=
  ⟨_, rfl, rfl⟩

theorem foldl_layoutStep_bars (one two : latencyData) (l : List Nat) : ∀ st : Layout,
    ∃ pre : List bar, (l.foldl (layoutStep one two) st).bars = pre ++ st.bars := by
  induction l with
  | nil => intro st; exact ⟨[], rfl⟩
  | cons i l ih =>
    intro st
    obtain ⟨pre, hpre⟩ := ih (layoutStep one two st i)
    obtain ⟨b, _, hb⟩ := layoutStep_bars one two st i
    refine ⟨pre ++ [b], ?_⟩
    rw [List.foldl_cons, hpre, hb]
    simp

theorem layout_rightmost (one two : latencyData) (width : Int) (hw : 1 ≤ width) :
    ∃ b : bar, (layout one two width).bars.getLast? = some b ∧
      b.styleOne = decide (one.count = two.count) := by
  obtain ⟨n, hn⟩ : ∃ n : Nat, width.toNat = n + 1 := ⟨width.toNat - 1, by omega⟩
  unfold layout
  rw [hn, List.range_succ_eq_map, List.foldl_cons]
  obtain ⟨b, hs, hb⟩ := layoutStep_bars one two
    { bars := [], maxLatency := 0, styleOne := decide (one.count = two.count) } 0
  obtain ⟨pre, hpre⟩ := foldl_layoutStep_bars one two (List.map Nat.succ (List.range n))
    (layoutStep one two
      { bars := [], maxLatency := 0, styleOne := decide (one.count = two.count) } 0)
  refine ⟨b, ?_, hs⟩
  rw [hpre, hb]
  simp

theorem layoutStep_maxInv (one two : latencyData) (st : Layout) (i : Nat)
    (h : st.MaxInv) : (layoutStep one two st i).MaxInv := by
  obtain ⟨h0, hle, hex⟩ := h
  unfold Layout.MaxInv layoutStep
  dsimp only
  generalize (if st.styleOne = true ∧ i / 2 < one.list.length then
      one.list.getD (one.list.length - 1 - i / 2) latency.zero
    else if ¬ st.styleOne = true ∧ i / 2 < two.list.length then
      two.list.getD (two.list.length - 1 - i / 2) latency.zero
    else latency.zero) = lat
  split_ifs with hgt
  · refine ⟨by omega, ?_, Or.inr ⟨_, List.mem_cons_self _ _, rfl⟩⟩
    intro b hb
    rcases List.mem_cons.mp hb with rfl | hb
    · exact le_refl _
    · have := hle b hb
      omega
  · refine ⟨h0, ?_, ?_⟩
    · intro b hb
      rcases List.mem_cons.mp hb with rfl | hb
      · simpa using hgt
      · exact hle b hb
    · rcases hex with h | ⟨b, hb, hbe⟩
      · exact Or.inl h
      · exact Or.inr ⟨b, List.mem_cons_of_mem _ hb, hbe⟩

theorem foldl_layoutStep_maxInv (one two : latencyData) (l : List Nat) : ∀ st : Layout,
    st.MaxInv → (l.foldl (layoutStep one two) st).MaxInv := by
  induction l with
  | nil => intro st h; exact h
  | cons i l ih =>
    intro st h
    exact ih _ (layoutStep_maxInv one two st i h)

theorem layout_maxInv (one two : latencyData) (width : Int) :
    (layout one two width).MaxInv := by
  unfold layout
  apply foldl_layoutStep_maxInv
  exact ⟨le_refl _, by simp, Or.inl rfl⟩

theorem drawGraph_some (fl : Int → Int → Int) (one two : latencyData)
    (x y width height : Int) (hw : 8 ≤ width) (hh : 1 ≤ height) (hc : 1 ≤ two.count) :
    drawGraph fl one two x y width height = some
      { bars := (layout one two (width - 7)).bars
        maxLatency := (layout one two (width - 7)).maxLatency
        cellUnit := cellUnitOf (layout one two (width - 7)).maxLatency height
        cells := (layout one two (width - 7)).bars.enum.flatMap fun ib =>
          barColumn fl (x + 7) y height
            (cellUnitOf (layout one two (width - 7)).maxLatency height) ib.1 ib.2 } := by
  unfold drawGraph
  rw [if_neg (by omega), if_neg (by omega)]

theorem cellUnitOf_eq (m h : Int) (hm : 0 ≤ m) (hh : 1 ≤ h) (hno : m + h - 1 ≤ maxDuration) :
    cellUnitOf m h = (m + h - 1) / h := by
  unfold cellUnitOf
  have h1 : wrap64 (wrap64 (m + h) - 1) = m + h - 1 := by
    unfold maxDuration at hno
    unfold wrap64
    omega
  rw [h1, Int.tdiv_eq_ediv (by omega) (by omega)]
  have h2 : 0 ≤ (m + h - 1) / h := Int.ediv_nonneg (by omega) (by omega)
  have h3 : (m + h - 1) / h ≤ m + h - 1 := Int.ediv_le_self _ (by omega)
  apply wrap64_of_inInt64
  unfold inInt64 minDuration
  unfold maxDuration at hno ⊢
  omega

theorem ceil_div_eq (m h : Int) (hh : 1 ≤ h) : ⌈(m : ℚ) / (h : ℚ)⌉ = (m + h - 1) / h := by
  have hpos : (0 : Int) < h := by omega
  have hposq : (0 : ℚ) < (h : ℚ) := by exact_mod_cast hpos
  have h1 : h * ((m + h - 1) / h) ≤ m + h - 1 := Int.mul_ediv_self_le (by omega)
  have h2 : m + h - 1 < h * ((m + h - 1) / h) + h := Int.lt_mul_ediv_self_add hpos
  rw [Int.ceil_eq_iff]
  generalize (m + h - 1) / h = q at h1 h2
  constructor
  · rw [lt_div_iff₀ hposq]
    have : (q - 1) * h < m := by nlinarith
    exact_mod_cast this
  · rw [div_le_iff₀ hposq]
    have : m ≤ q * h := by nlinarith
    exact_mod_cast this

theorem layoutStep_zero (one two : latencyData) (st : Layout) (i : Nat)
    (h1 : ∀ l ∈ one.list, l.total = 0) (h2 : ∀ l ∈ two.list, l.total = 0)
    (h : ∀ b ∈ st.bars, b.latency.total = 0) :
    ∀ b ∈ (layoutStep one two st i).bars, b.latency.total = 0 := by
  intro b hb
  unfold layoutStep at hb
  dsimp only at hb
  rcases List.mem_cons.mp hb with rfl | hb
  · dsimp only
    split_ifs with ha hb2
    · have hi : one.list.length - 1 - i / 2 < one.list.length := by omega
      rw [List.getD_eq_getElem _ _ hi]
      exact h1 _ (List.getElem_mem hi)
    · have hi : two.list.length - 1 - i / 2 < two.list.length := by omega
      rw [List.getD_eq_getElem _ _ hi]
      exact h2 _ (List.getElem_mem hi)
    · rfl
  · exact h b hb

theorem foldl_layoutStep_zero (one two : latencyData) (l : List Nat)
    (h1 : ∀ l ∈ one.list, l.total = 0) (h2 : ∀ l ∈ two.list, l.total = 0) :
    ∀ st : Layout, (∀ b ∈ st.bars, b.latency.total = 0) →
      ∀ b ∈ (l.foldl (layoutStep one two) st).bars, b.latency.total = 0 := by
  induction l with
  | nil => intro st h; exact h
  | cons i l ih =>
    intro st h
    exact ih _ (layoutStep_zero one two st i h1 h2 h)

/-- For every graph that is drawn from histories whose totals are all 0, the scale
`cellUnit` is 0 and the glyph index of every laid-out bar in every row is 8, the full
block. -/
theorem zero_totals_full (fl : Int → Int → Int) (one two : latencyData)
    (x y width height : Int) (hw : 8 ≤ width) (hh : 1 ≤ height) (hmax : height ≤ maxDuration)
    (hc : 1 ≤ two.count)
    (h1 : ∀ l ∈ one.list, l.total = 0) (h2 : ∀ l ∈ two.list, l.total = 0) :
    ∃ g, drawGraph fl one two x y width height = some g ∧ g.cellUnit = 0 ∧
      ∀ b ∈ g.bars, ∀ j : Nat, barIndex fl b.latency.total g.cellUnit j = 8 := by
  have hz : ∀ b ∈ (layout one two (width - 7)).bars, b.latency.total = 0 := by
    unfold layout
    exact foldl_layoutStep_zero one two _ h1 h2 _ (by simp)
  obtain ⟨_, _, hex⟩ := layout_maxInv one two (width - 7)
  have hm : (layout one two (width - 7)).maxLatency = 0 := by
    rcases hex with h | ⟨b, hb, hbe⟩
    · exact h
    · rw [← hbe]
      exact hz b hb
  have hcu : cellUnitOf (layout one two (width - 7)).maxLatency height = 0 := by
    rw [hm, cellUnitOf_eq 0 height (le_refl _) hh (by omega)]
    exact Int.ediv_eq_zero_of_lt (by omega) (by omega)
  refine ⟨_, drawGraph_some fl one two x y width height hw hh hc, hcu, ?_⟩
  intro b hb j
  dsimp only at hb ⊢
  rw [hcu, hz b hb]
  unfold barIndex
  have hw0 : wrap64 (wrap64 ((j : Int) + 1) * 0) = 0 := by
    rw [mul_zero]
    decide
  rw [if_pos (by rw [hw0])]
  decide

/-- C5, at the failing input. Width 9, height 2, direction two holding one record whose
total is 0: the scale `cellUnit` is 0 (no division by zero), and every row of both bars is
drawn with glyph index 8, the full block, instead of index 0. -/
theorem zero_totals_drawn_full :
    drawGraph exactLevel latencyData.empty (update latencyData.empty latency.zero) 0 2 9 2
      = some
        { bars := [{ styleOne := true, latency := latency.zero },
                   { styleOne := false, latency := latency.zero }]
          maxLatency := 0
          cellUnit := 0
          cells := [{ x := 7, y := 3, index := 8, styleOne := true },
                    { x := 7, y := 2, index := 8, styleOne := true },
                    { x := 8, y := 3, index := 8, styleOne := false },
                    { x := 8, y := 2, index := 8, styleOne := false }] } := by
  decide

/-- C6, as the code behaves. For every graph that is drawn (width at least 8, height at
least 1, `twoData.count >= 1`), the rightmost bar is attributed to direction one when
`oneData.count == twoData.count` and to direction two otherwise. -/
theorem rightmost_slot (fl : Int → Int → Int) (one two : latencyData)
    (x y width height : Int) (hw : 8 ≤ width) (hh : 1 ≤ height) (hc : 1 ≤ two.count) :
    ∃ g b, drawGraph fl one two x y width height = some g ∧
      g.bars.getLast? = some b ∧ b.styleOne = decide (one.count = two.count) := by
  obtain ⟨b, hb, hs⟩ := layout_rightmost one two (width - 7) (by omega)
  exact ⟨_, b, drawGraph_some fl one two x y width height hw hh hc, hb, hs⟩

/-- Witness of C6: `oneData` holds 2 records and `twoData` 3 -/
theorem rightmost_slot_witness :
    (8 ≤ (10 : Int) ∧ 1 ≤ (3 : Int) ∧ 1 ≤ threeRecords.count) ∧
    ∃ g b, drawGraph exactLevel twoRecords threeRecords 0 2 10 3 = some g ∧
      g.bars.getLast? = some b ∧ b.styleOne = decide (twoRecords.count = threeRecords.count) :=
  ⟨by decide, rightmost_slot exactLevel twoRecords threeRecords 0 2 10 3
    (by decide) (by decide) (by decide)⟩

/-- Counterexample to C6 as stated: `oneData` holds 3 records and `twoData` 2, and the
rightmost bar is attributed to direction two, the direction with the smaller count. -/
theorem smaller_count_rightmost :
    threeRecords.count = 3 ∧ twoRecords.count = 2 ∧
    (drawGraph exactLevel threeRecords twoRecords 0 2 10 3).map
        (fun g => g.bars.getLast?.map (fun b => b.styleOne)) = some (some false) := by
  decide

/-- C10. For every graph that is drawn and in the absence of overflow in
`maxLatency + height - 1`: `maxLatency` is the largest total among the laid-out bars and
at least 0, `cellUnit` is the ceiling of `maxLatency / height`, and
`height * cellUnit >= total` for every laid-out bar. -/
theorem cellUnit_is_ceiling (fl : Int → Int → Int) (one two : latencyData)
    (x y width height : Int) (hw : 8 ≤ width) (hh : 1 ≤ height) (hc : 1 ≤ two.count)
    (hno : (layout one two (width - 7)).maxLatency + height - 1 ≤ maxDuration) :
    ∃ g, drawGraph fl one two x y width height = some g ∧
      0 ≤ g.maxLatency ∧
      (∀ b ∈ g.bars, b.latency.total ≤ g.maxLatency) ∧
      (g.maxLatency = 0 ∨ ∃ b ∈ g.bars, b.latency.total = g.maxLatency) ∧
      g.cellUnit = ⌈(g.maxLatency : ℚ) / (height : ℚ)⌉ ∧
      ∀ b ∈ g.bars, b.latency.total ≤ height * g.cellUnit := by
  obtain ⟨h0, hle, hex⟩ := layout_maxInv one two (width - 7)
  have hcu := cellUnitOf_eq (layout one two (width - 7)).maxLatency height h0 hh hno
  refine ⟨_, drawGraph_some fl one two x y width height hw hh hc, h0, hle, hex, ?_, ?_⟩
  · dsimp only
    rw [hcu, ceil_div_eq _ _ hh]
  · intro b hb
    dsimp only at hb ⊢
    rw [hcu]
    have h2 : (layout one two (width - 7)).maxLatency + height - 1
        < height * (((layout one two (width - 7)).maxLatency + height - 1) / height) + height :=
      Int.lt_mul_ediv_self_add (by omega)
    have := hle b hb
    omega

/-- Witness of C10: width 10, height 3, `oneData` of 3 records and `twoData` of 2 -/
theorem cellUnit_is_ceiling_witness :
    (8 ≤ (10 : Int) ∧ 1 ≤ (3 : Int) ∧ 1 ≤ twoRecords.count ∧
      (layout threeRecords twoRecords (10 - 7)).maxLatency + 3 - 1 ≤ maxDuration) ∧
    ∃ g, drawGraph exactLevel threeRecords twoRecords 0 2 10 3 = some g ∧
      0 ≤ g.maxLatency ∧
      (∀ b ∈ g.bars, b.latency.total ≤ g.maxLatency) ∧
      (g.maxLatency = 0 ∨ ∃ b ∈ g.bars, b.latency.total = g.maxLatency) ∧
      g.cellUnit = ⌈(g.maxLatency : ℚ) / ((3 : Int) : ℚ)⌉ ∧
      ∀ b ∈ g.bars, b.latency.total ≤ 3 * g.cellUnit :=
  ⟨by decide, cellUnit_is_ceiling exactLevel threeRecords twoRecords 0 2 10 3
    (by decide) (by decide) (by decide) (by decide)⟩

/-! ## `formatLatency` -/

theorem toDigits_length_le (k e : Nat) (he : 0 < e) (h : k < 10 ^ e) :
    (Nat.toDigits 10 k).length ≤ e := by
  unfold Nat.toDigits
  exact Nat.toDigitsCore_length 10 (by omega) (k + 1) k e h he

theorem decimal_length_le (m : Int) (hlo : -100 < m) (hhi : m < 1000) :
    (decimal m).length ≤ 3 := by
  cases m with
  | ofNat k =>
    have hk : k < 10 ^ 3 := by
      have : (k : Int) < 1000 := hhi
      omega
    exact toDigits_length_le k 3 (by omega) hk
  | negSucc k =>
    have hk : k + 1 < 10 ^ 2 := by
      have h1 : -100 < Int.negSucc k := hlo
      rw [Int.negSucc_eq] at h1
      omega
    have := toDigits_length_le (k + 1) 2 (by omega) hk
    simp only [decimal, List.length_cons]
    omega

/-- C8, as the code behaves. For every duration whose count `m` of milliseconds,
rounded to the nearest, satisfies `-100 < m < 1000`, and either alignment,
`formatLatency` returns a token of exactly 5 characters: the decimal text of `m` followed
by `ms`, padded with spaces on the left when `alignRight` and on the right otherwise. -/
theorem formatLatency_subsecond (formatSeconds : Int → List Char) (d : Int)
    (alignRight : Bool)
    (hlo : -100 < DurationMilliseconds (DurationRound d Millisecond))
    (hhi : DurationMilliseconds (DurationRound d Millisecond) < 1000) :
    (formatLatency formatSeconds d alignRight).length = 5 ∧
    formatLatency formatSeconds d alignRight =
      if alignRight then
        List.replicate
            (3 - (decimal (DurationMilliseconds (DurationRound d Millisecond))).length) ' '
          ++ (decimal (DurationMilliseconds (DurationRound d Millisecond)) ++ ['m', 's'])
      else
        (decimal (DurationMilliseconds (DurationRound d Millisecond)) ++ ['m', 's'])
          ++ List.replicate
            (3 - (decimal (DurationMilliseconds (DurationRound d Millisecond))).length) ' ' := by
  have hlen := decimal_length_le _ hlo hhi
  unfold formatLatency
  generalize DurationMilliseconds (DurationRound d Millisecond) = m at hlo hhi hlen ⊢
  simp only [if_pos hhi, List.length_append, List.length_cons, List.length_nil]
  have e1 : 5 - ((decimal m).length + (0 + 1 + 1)) = 3 - (decimal m).length := by omega
  rw [e1]
  by_cases hlt : (decimal m).length + (0 + 1 + 1) < 5
  · rw [if_pos hlt]
    cases alignRight
    · have hl : ((decimal m ++ ['m', 's']) ++ List.replicate (3 - (decimal m).length) ' ').length
          = 5 := by
        simp only [List.length_append, List.length_cons, List.length_nil, List.length_replicate]
        omega
      simp only [Bool.false_eq_true, if_false]
      rw [List.take_of_length_le (by omega)]
      exact ⟨hl, rfl⟩
    · have hl : (List.replicate (3 - (decimal m).length) ' ' ++ (decimal m ++ ['m', 's'])).length
          = 5 := by
        simp only [List.length_append, List.length_cons, List.length_nil, List.length_replicate]
        omega
      simp only [if_true]
      rw [List.take_of_length_le (by omega)]
      exact ⟨hl, rfl⟩
  · rw [if_neg hlt]
    have h3 : (decimal m).length = 3 := by omega
    have hl : (decimal m ++ ['m', 's']).length = 5 := by
      simp only [List.length_append, List.length_cons, List.length_nil]
      omega
    rw [List.take_of_length_le (by omega), h3]
    refine ⟨hl, ?_⟩
    cases alignRight <;> simp

/-- Witness of C8: 5.499999 ms, right-aligned -/
theorem formatLatency_subsecond_witness :
    (-100 < DurationMilliseconds (DurationRound 5499999 Millisecond) ∧
      DurationMilliseconds (DurationRound 5499999 Millisecond) < 1000) ∧
    ((formatLatency noSeconds 5499999 true).length = 5 ∧
    formatLatency noSeconds 5499999 true =
      if true then
        List.replicate
            (3 - (decimal (DurationMilliseconds (DurationRound 5499999 Millisecond))).length) ' '
          ++ (decimal (DurationMilliseconds (DurationRound 5499999 Millisecond)) ++ ['m', 's'])
      else
        (decimal (DurationMilliseconds (DurationRound 5499999 Millisecond)) ++ ['m', 's'])
          ++ List.replicate
            (3 - (decimal (DurationMilliseconds (DurationRound 5499999 Millisecond))).length) ' ') :=
  ⟨by decide, formatLatency_subsecond noSeconds 5499999 true (by decide) (by decide)⟩

/-- Sample tokens of `formatLatency` for durations below one second -/
theorem formatLatency_examples :
    formatLatency noSeconds 5499999 true = [' ', ' ', '5', 'm', 's'] ∧
    formatLatency noSeconds 5500000 false = ['6', 'm', 's', ' ', ' '] ∧
    formatLatency noSeconds 999499999 true = ['9', '9', '9', 'm', 's'] ∧
    formatLatency noSeconds (-99000000) false = ['-', '9', '9', 'm', 's'] := by
  decide

/-- Counterexample to C8 as stated: minus 100 ms is below one second (`m = -100 < 1000`)
and the token is `-100m`, the text `-100ms` cut to 5 characters; it is not the decimal
count followed by `ms` and padded. -/
theorem formatLatency_negative_truncated :
    DurationMilliseconds (DurationRound (-100000000) Millisecond) = -100 ∧
    formatLatency noSeconds (-100000000) false = ['-', '1', '0', '0', 'm'] ∧
    ¬ isPaddedMs (-100) false (formatLatency noSeconds (-100000000) false) := by
  refine ⟨by decide, by decide, ?_⟩
  rintro ⟨hlen, k, hk⟩
  rw [hk] at hlen
  have hd : decimal (-100) = ['-', '1', '0', '0'] := by decide
  simp [hd] at hlen

end PingPong
